import Mathlib

/-!
Verification of the backtracking Sudoku solver in `sudoku_backtrack.py`.

The Python `Sudoku` class owns a mutable 9x9 grid of integers (0 = empty,
1-9 = filled).  We embed the grid as a function `Fin 9 → Fin 9 → Nat` and
each method as a pure Lean function; the in-place mutation of `solve` is
modelled by threading the board through the recursion explicitly, and the
unbounded Python recursion is modelled with a fuel parameter (one unit of
fuel per recursion level), together with a proof that `numEmpty b + 1`
fuel always suffices.
-/

/-- A Sudoku grid: 9x9 cells, each a natural number (0 means empty). -/
abbrev Board := Fin 9 → Fin 9 → Nat

/-- Writing value `v` at position `(r, c)`; models `self.board[row][col] = v`. -/
def setCell (b : Board) (r c : Fin 9) (v : Nat) : Board :=
  fun i j => if i = r ∧ j = c then v else b i j

/-- Row index of the `i`-th scanned cell of the 3x3 box containing row `r`:
the Python expression `row - row % 3 + i // 3`. -/
def boxRow (r i : Fin 9) : Fin 9 :=
  ⟨r.val - r.val % 3 + i.val / 3, by have hr := r.isLt; have hi := i.isLt; omega⟩

/-- Column index of the `i`-th scanned cell of the 3x3 box containing column `c`:
the Python expression `col - col % 3 + i % 3`. -/
def boxCol (c i : Fin 9) : Fin 9 :=
  ⟨c.val - c.val % 3 + i.val % 3, by have hc := c.isLt; have hi := i.isLt; omega⟩

/-- Embedding of `Sudoku.is_valid_move`: for `i` in `range(9)` the Python code
rejects as soon as `board[row][i] == num` or `board[i][col] == num` or
`board[row - row%3 + i//3][col - col%3 + i%3] == num`, and accepts otherwise. -/
def is_valid_move (b : Board) (r c : Fin 9) (num : Nat) : Bool :=
  (List.finRange 9).all fun i =>
    ! (b r i == num || b i c == num || b (boxRow r i) (boxCol c i) == num)

/-- Embedding of `sum(self.is_valid_move(i, j, num) for num in range(1, 10))`:
the number of digits 1..9 accepted by `is_valid_move` at `(r, c)`. -/
def candidates (b : Board) (r c : Fin 9) : Nat :=
  (List.range' 1 9).countP fun num => is_valid_move b r c num

/-- All 81 cell coordinates in row-major order, the order of the Python
nested loops `for i in range(9): for j in range(9)`. -/
def cellsRM : List (Fin 9 × Fin 9) :=
  (List.finRange 9).flatMap fun i => (List.finRange 9).map fun j => (i, j)

/-- Row-major rank of a coordinate, used to talk about scan order. -/
def rmIndex (p : Fin 9 × Fin 9) : Nat := p.1.val * 9 + p.2.val

/-- One step of the scan in `find_least_candidates_cell`: the body of the
nested loop, updating the running `(min_candidates, cell)` accumulator. -/
def findStep (b : Board) (acc : Nat × Option (Fin 9 × Fin 9)) (p : Fin 9 × Fin 9) :
    Nat × Option (Fin 9 × Fin 9) :=
  if b p.1 p.2 = 0 then
    if candidates b p.1 p.2 < acc.1 then (candidates b p.1 p.2, some p) else acc
  else acc

/-- Embedding of `Sudoku.find_least_candidates_cell`: scan all cells in
row-major order starting from `min_candidates = 10`, `cell = None`, and
return the final `cell`. -/
def find_least_candidates_cell (b : Board) : Option (Fin 9 × Fin 9) :=
  (cellsRM.foldl (findStep b) (10, none)).2

/-- Invariant of the scan in `find_least_candidates_cell`, after the cells
in `seen` have been processed with accumulator `acc`: if no cell was
selected yet the minimum is still 10 and no seen cell is empty; otherwise
the selected cell is a seen empty cell whose candidate count is the
minimum over the seen empty cells and strictly below every earlier seen
empty cell with the same count. -/
def FindInv (b : Board) (seen : List (Fin 9 × Fin 9)) (acc : Nat × Option (Fin 9 × Fin 9)) :
    Prop :=
  (acc.2 = none → acc.1 = 10 ∧ ∀ q ∈ seen, b q.1 q.2 ≠ 0) ∧
  (∀ q0, acc.2 = some q0 → q0 ∈ seen ∧ b q0.1 q0.2 = 0 ∧ acc.1 = candidates b q0.1 q0.2 ∧
    (∀ q ∈ seen, b q.1 q.2 = 0 → acc.1 ≤ candidates b q.1 q.2) ∧
    (∀ q ∈ seen, b q.1 q.2 = 0 → candidates b q.1 q.2 = acc.1 → rmIndex q0 ≤ rmIndex q))

/-- Number of empty cells of a board. -/
def numEmpty (b : Board) : Nat :=
  (Finset.univ.filter fun p : Fin 9 × Fin 9 => b p.1 p.2 = 0).card

/-- The candidate loop of `Sudoku.solve` (`for num in range(1, 10)`),
parameterised by the recursive call `next`.  For each digit that passes
`is_valid_move` the cell is set, `next` is run on the mutated board; on
success the solved board is returned, on failure the cell is reset to 0
(Python `self.board[row][col] = 0`) and the loop continues.  `none` models
running out of fuel in `next`. -/
def loopGen (next : Board → Option (Bool × Board)) (r c : Fin 9) :
    List Nat → Board → Option (Bool × Board)
  | [], b => some (false, b)
  | num :: rest, b =>
    if is_valid_move b r c num then
      match next (setCell b r c num) with
      | none => none
      | some (true, b2) => some (true, b2)
      | some (false, b2) => loopGen next r c rest (setCell b2 r c 0)
    else loopGen next r c rest b

/-- Fuel-indexed embedding of `Sudoku.solve`: pick the least-candidates cell;
if there is none the puzzle is solved (`return True`), otherwise run the
candidate loop.  Each recursion level consumes one unit of fuel; `none`
means the fuel ran out (which `solveF_isSome` shows never happens at fuel
`numEmpty b + 1`). -/
def solveF : Nat → Board → Option (Bool × Board)
  | 0, _ => none
  | f + 1, b =>
    match find_least_candidates_cell b with
    | none => some (true, b)
    | some (r, c) => loopGen (solveF f) r c (List.range' 1 9) b

/-- Embedding of a top-level call to `Sudoku.solve`: run `solveF` with the
provably sufficient fuel `numEmpty b + 1` and return the Boolean result
together with the final state of the grid. -/
def solve (b : Board) : Bool × Board :=
  (solveF (numEmpty b + 1) b).getD (false, b)

/-- Two cells lie in a common unit: same row, same column, or same 3x3 box. -/
def SameUnit (p q : Fin 9 × Fin 9) : Prop :=
  p.1 = q.1 ∨ p.2 = q.2 ∨ (p.1.val / 3 = q.1.val / 3 ∧ p.2.val / 3 = q.2.val / 3)

instance : DecidablePred fun pq : (Fin 9 × Fin 9) × (Fin 9 × Fin 9) => SameUnit pq.1 pq.2 :=
  fun _ => by unfold SameUnit; infer_instance

instance (p q : Fin 9 × Fin 9) : Decidable (SameUnit p q) := by
  unfold SameUnit; infer_instance

/-- Unit consistency: no two distinct cells of a common unit hold the same
non-zero digit. -/
def Consistent (b : Board) : Prop :=
  ∀ p q : Fin 9 × Fin 9, p ≠ q → SameUnit p q → b p.1 p.2 ≠ 0 → b p.1 p.2 ≠ b q.1 q.2

instance (b : Board) : Decidable (Consistent b) := by
  unfold Consistent; infer_instance

/-- Every cell holds a value in [0, 9]; this is what construction accepts. -/
def InRange (b : Board) : Prop := ∀ i j : Fin 9, b i j ≤ 9

instance (b : Board) : Decidable (InRange b) := by
  unfold InRange; infer_instance

/-- Every cell is non-zero (the grid is fully filled). -/
def Filled (b : Board) : Prop := ∀ i j : Fin 9, b i j ≠ 0

instance (b : Board) : Decidable (Filled b) := by
  unfold Filled; infer_instance

/-- Board `s` agrees with `b` on every originally non-zero cell of `b`. -/
def Extends (b s : Board) : Prop := ∀ i j : Fin 9, b i j ≠ 0 → s i j = b i j

instance (b s : Board) : Decidable (Extends b s) := by
  unfold Extends; infer_instance

/-- Board `s` is a full valid completion of board `b`. -/
def IsSolution (s b : Board) : Prop :=
  (∀ i j : Fin 9, 1 ≤ s i j ∧ s i j ≤ 9) ∧ Consistent s ∧ Extends b s

instance (s b : Board) : Decidable (IsSolution s b) := by
  unfold IsSolution; infer_instance

/-- Outcome of a successful search started from board `b` and ending in
board `b2`: the final grid is in range, unit-consistent, fully filled, and
agrees with `b` on every originally filled cell. -/
def GoodResult (b b2 : Board) : Prop :=
  InRange b2 ∧ Consistent b2 ∧ Filled b2 ∧ Extends b b2

/-- Instrumented candidate loop: same control flow as `loopGen`, but also
logging the grid state right after each mutation (each tentative
assignment and each backtracking reset), so that the search invariant can
be stated about every intermediate state of the run. -/
def loopGenT (next : Board → Option (Bool × Board) × List Board) (r c : Fin 9) :
    List Nat → Board → Option (Bool × Board) × List Board
  | [], b => (some (false, b), [])
  | num :: rest, b =>
    if is_valid_move b r c num then
      match next (setCell b r c num) with
      | (none, log) => (none, setCell b r c num :: log)
      | (some (true, b2), log) => (some (true, b2), setCell b r c num :: log)
      | (some (false, b2), log) =>
        ((loopGenT next r c rest (setCell b2 r c 0)).1,
          setCell b r c num ::
            (log ++ (setCell b2 r c 0 :: (loopGenT next r c rest (setCell b2 r c 0)).2)))
    else loopGenT next r c rest b

/-- Instrumented `solveF`: same control flow, returning in addition the list
of every grid state produced by a mutation during the run. -/
def solveT : Nat → Board → Option (Bool × Board) × List Board
  | 0, _ => (none, [])
  | f + 1, b =>
    match find_least_candidates_cell b with
    | none => (some (true, b), [])
    | some (r, c) => loopGenT (solveT f) r c (List.range' 1 9) b

/-- Embedding of `Sudoku.is_valid_input` on the raw constructor argument, a
list of lists of integers: the board must have 9 rows, each row 9 entries,
and every entry in [0, 9].  (`isinstance(num, int)` is enforced by the
type of the embedding.) -/
def is_valid_input (board : List (List Int)) : Bool :=
  if board.length ≠ 9 ∨ board.any (fun row => row.length ≠ 9) then false
  else board.all fun row => row.all fun num => decide (0 ≤ num ∧ num ≤ 9)

/-- Embedding of `Sudoku.__init__`: construction succeeds (returns the
accepted grid) iff `is_valid_input` holds; `none` models raising the
invalid-board error (`ValueError` in the code, `InvalidBoardError` in the
specification). -/
def mkSudoku (board : List (List Int)) : Option (List (List Int)) :=
  if is_valid_input board then some board else none

/-- Reading a board out of a row-major list of lists (missing entries 0). -/
def boardOfLists (l : List (List Nat)) : Board :=
  fun i j => (l.getD i.val []).getD j.val 0

/-- The all-zero (fully empty) board. -/
def emptyBoard : Board := fun _ _ => 0

/-- The board every cell of which holds 1: fully filled but violating every
row and column constraint. -/
def onesBoard : Board := fun _ _ => 1

/-- A concrete fully-filled valid Sudoku grid. -/
def fullGrid : Board := boardOfLists
  [[1,2,3,4,5,6,7,8,9],
   [4,5,6,7,8,9,1,2,3],
   [7,8,9,1,2,3,4,5,6],
   [2,3,4,5,6,7,8,9,1],
   [5,6,7,8,9,1,2,3,4],
   [8,9,1,2,3,4,5,6,7],
   [3,4,5,6,7,8,9,1,2],
   [6,7,8,9,1,2,3,4,5],
   [9,1,2,3,4,5,6,7,8]]

/-- The grid `fullGrid` with one hole punched at (0, 0) (so the unique
completion writes the digit 1 back there). -/
def holeGrid : Board := boardOfLists
  [[0,2,3,4,5,6,7,8,9],
   [4,5,6,7,8,9,1,2,3],
   [7,8,9,1,2,3,4,5,6],
   [2,3,4,5,6,7,8,9,1],
   [5,6,7,8,9,1,2,3,4],
   [8,9,1,2,3,4,5,6,7],
   [3,4,5,6,7,8,9,1,2],
   [6,7,8,9,1,2,3,4,5],
   [9,1,2,3,4,5,6,7,8]]

/-- An unsolvable board: cell (0, 8) cannot hold 1..8 (they fill its row)
nor 9 (already in its column), so the search fails at once. -/
def deadGrid : Board := boardOfLists
  [[1,2,3,4,5,6,7,8,0],
   [0,0,0,0,0,0,0,0,9],
   [0,0,0,0,0,0,0,0,0],
   [0,0,0,0,0,0,0,0,0],
   [0,0,0,0,0,0,0,0,0],
   [0,0,0,0,0,0,0,0,0],
   [0,0,0,0,0,0,0,0,0],
   [0,0,0,0,0,0,0,0,0],
   [0,0,0,0,0,0,0,0,0]]

/-- A raw constructor input with only 8 rows. -/
def rows8Input : List (List Int) :=
  List.replicate 8 (List.replicate 9 (0 : Int))

/-- A raw constructor input containing the out-of-range value 10. -/
def tenInput : List (List Int) :=
  ((10 : Int) :: List.replicate 8 (0 : Int)) :: List.replicate 8 (List.replicate 9 (0 : Int))

/-- A raw constructor input that is shape- and range-valid but holds two
equal digits in its first row (unit-inconsistent). -/
def dupInput : List (List Int) :=
  ((1 : Int) :: 1 :: List.replicate 7 (0 : Int)) :: List.replicate 8 (List.replicate 9 (0 : Int))

theorem setCell_self (b : Board) (r c : Fin 9) (v : Nat) : setCell b r c v r c = v := by
  simp [setCell]

theorem setCell_ne (b : Board) (r c : Fin 9) (v : Nat) {i j : Fin 9}
    (h : ¬(i = r ∧ j = c)) : setCell b r c v i j = b i j := by
  simp [setCell, h]

theorem setCell_cancel (b : Board) (r c : Fin 9) (v : Nat) (h : b r c = 0) :
    setCell (setCell b r c v) r c 0 = b := by
  funext i j
  by_cases hij : i = r ∧ j = c
  · obtain ⟨rfl, rfl⟩ := hij
    simp [setCell, h]
  · simp [setCell, hij]

theorem setCell_nonzero_frame {b : Board} {r c : Fin 9} (v : Nat) (hrc : b r c = 0)
    {i j : Fin 9} (h : b i j ≠ 0) : setCell b r c v i j = b i j := by
  refine setCell_ne b r c v fun hij => ?_
  obtain ⟨rfl, rfl⟩ := hij
  exact h hrc

theorem sameUnit_symm {p q : Fin 9 × Fin 9} (h : SameUnit p q) : SameUnit q p := by
  rcases h with h | h | ⟨h1, h2⟩
  · exact Or.inl h.symm
  · exact Or.inr (Or.inl h.symm)
  · exact Or.inr (Or.inr ⟨h1.symm, h2.symm⟩)

theorem scan_sameUnit : ∀ (r c i : Fin 9),
    SameUnit (r, c) (r, i) ∧ SameUnit (r, c) (i, c) ∧
      SameUnit (r, c) (boxRow r i, boxCol c i) := by decide

theorem sameUnit_scan : ∀ (r c : Fin 9) (p : Fin 9 × Fin 9), SameUnit (r, c) p →
    ∃ i : Fin 9, p = (r, i) ∨ p = (i, c) ∨ p = (boxRow r i, boxCol c i) := by decide

theorem is_valid_move_eq_true (b : Board) (r c : Fin 9) (num : Nat) :
    is_valid_move b r c num = true ↔
      ∀ i : Fin 9, b r i ≠ num ∧ b i c ≠ num ∧ b (boxRow r i) (boxCol c i) ≠ num := by
  simp [is_valid_move, List.all_eq_true, List.mem_finRange, not_or, and_assoc]

theorem is_valid_move_spec (b : Board) (r c : Fin 9) (num : Nat) :
    is_valid_move b r c num = true ↔
      ∀ p : Fin 9 × Fin 9, SameUnit (r, c) p → b p.1 p.2 ≠ num := by
  rw [is_valid_move_eq_true]
  constructor
  · intro h p hp
    obtain ⟨i, hi⟩ := sameUnit_scan r c p hp
    rcases hi with rfl | rfl | rfl
    · exact (h i).1
    · exact (h i).2.1
    · exact (h i).2.2
  · intro h i
    exact ⟨h (r, i) (scan_sameUnit r c i).1, h (i, c) (scan_sameUnit r c i).2.1,
      h _ (scan_sameUnit r c i).2.2⟩

theorem consistent_setCell {b : Board} {r c : Fin 9} {num : Nat}
    (hb : Consistent b)
    (hv : is_valid_move b r c num = true) : Consistent (setCell b r c num) := by
  have hspec := (is_valid_move_spec b r c num).mp hv
  rintro ⟨p1, p2⟩ ⟨q1, q2⟩ hne hunit hp0 heq
  by_cases hp : p1 = r ∧ p2 = c
  · obtain ⟨rfl, rfl⟩ := hp
    by_cases hq : q1 = p1 ∧ q2 = p2
    · exact hne (by rw [hq.1, hq.2])
    · have hqv : setCell b p1 p2 num q1 q2 = b q1 q2 := setCell_ne _ _ _ _ hq
      rw [setCell_self, hqv] at heq
      exact hspec (q1, q2) hunit heq.symm
  · have hpv : setCell b r c num p1 p2 = b p1 p2 := setCell_ne _ _ _ _ hp
    by_cases hq : q1 = r ∧ q2 = c
    · obtain ⟨rfl, rfl⟩ := hq
      rw [hpv] at hp0 heq
      rw [setCell_self] at heq
      exact hspec (p1, p2) (sameUnit_symm hunit) heq
    · have hqv : setCell b r c num q1 q2 = b q1 q2 := setCell_ne _ _ _ _ hq
      rw [hpv] at hp0 heq
      rw [hqv] at heq
      exact hb (p1, p2) (q1, q2) hne hunit hp0 heq

theorem inRange_setCell {b : Board} {r c : Fin 9} {v : Nat}
    (hb : InRange b) (hv : v ≤ 9) : InRange (setCell b r c v) := by
  intro i j
  by_cases hij : i = r ∧ j = c
  · obtain ⟨rfl, rfl⟩ := hij
    rw [setCell_self]
    exact hv
  · rw [setCell_ne _ _ _ _ hij]
    exact hb i j

theorem candidates_le (b : Board) (r c : Fin 9) : candidates b r c ≤ 9 := by
  have h := List.countP_le_length (p := fun num => is_valid_move b r c num)
    (l := List.range' 1 9)
  simpa [candidates] using h

theorem mem_cellsRM : ∀ p : Fin 9 × Fin 9, p ∈ cellsRM := by decide

theorem cellsRM_sorted : cellsRM.Pairwise fun p q => rmIndex p < rmIndex q := by decide

theorem findInv_step (b : Board) (seen : List (Fin 9 × Fin 9))
    (acc : Nat × Option (Fin 9 × Fin 9)) (p : Fin 9 × Fin 9)
    (hinv : FindInv b seen acc)
    (hord : ∀ q ∈ seen, rmIndex q < rmIndex p) :
    FindInv b (seen ++ [p]) (findStep b acc p) := by
  obtain ⟨hnone, hsome⟩ := hinv
  unfold findStep
  by_cases hz : b p.1 p.2 = 0
  · by_cases hlt : candidates b p.1 p.2 < acc.1
    · simp only [hz, hlt, if_true]
      constructor
      · intro h
        exact absurd h (by simp)
      · intro q0 hq0
        obtain rfl : p = q0 := by simpa using hq0
        refine ⟨by simp, hz, rfl, ?_, ?_⟩
        · intro q hq hqz
          rcases List.mem_append.mp hq with hq | hq
          · rcases hacc : acc.2 with _ | q1
            · exact absurd hqz ((hnone hacc).2 q hq)
            · have := (hsome q1 hacc).2.2.2.1 q hq hqz
              omega
          · have : q = p := by simpa using hq
            subst this
            exact le_refl _
        · intro q hq hqz hqe
          rcases List.mem_append.mp hq with hq | hq
          · rcases hacc : acc.2 with _ | q1
            · exact absurd hqz ((hnone hacc).2 q hq)
            · have := (hsome q1 hacc).2.2.2.1 q hq hqz
              omega
          · have : q = p := by simpa using hq
            subst this
            exact le_refl _
    · simp only [hz, hlt, if_true, if_false]
      constructor
      · intro h
        have h10 := (hnone h).1
        have h9 := candidates_le b p.1 p.2
        omega
      · intro q0 hq0
        obtain ⟨hmem, hq0z, hq0c, hmin, htie⟩ := hsome q0 hq0
        refine ⟨List.mem_append_left _ hmem, hq0z, hq0c, ?_, ?_⟩
        · intro q hq hqz
          rcases List.mem_append.mp hq with hq | hq
          · exact hmin q hq hqz
          · have : q = p := by simpa using hq
            subst this
            omega
        · intro q hq hqz hqe
          rcases List.mem_append.mp hq with hq | hq
          · exact htie q hq hqz hqe
          · have : q = p := by simpa using hq
            subst this
            exact le_of_lt (hord q0 hmem)
  · simp only [hz, if_false]
    constructor
    · intro h
      obtain ⟨h10, hs⟩ := hnone h
      refine ⟨h10, ?_⟩
      intro q hq
      rcases List.mem_append.mp hq with hq | hq
      · exact hs q hq
      · have : q = p := by simpa using hq
        subst this
        exact hz
    · intro q0 hq0
      obtain ⟨hmem, hq0z, hq0c, hmin, htie⟩ := hsome q0 hq0
      refine ⟨List.mem_append_left _ hmem, hq0z, hq0c, ?_, ?_⟩
      · intro q hq hqz
        rcases List.mem_append.mp hq with hq | hq
        · exact hmin q hq hqz
        · have : q = p := by simpa using hq
          subst this
          exact absurd hqz hz
      · intro q hq hqz hqe
        rcases List.mem_append.mp hq with hq | hq
        · exact htie q hq hqz hqe
        · have : q = p := by simpa using hq
          subst this
          exact absurd hqz hz

theorem findInv_foldl (b : Board) (rest : List (Fin 9 × Fin 9)) :
    ∀ (seen : List (Fin 9 × Fin 9)) (acc : Nat × Option (Fin 9 × Fin 9)),
      FindInv b seen acc →
      (∀ q ∈ seen, ∀ x ∈ rest, rmIndex q < rmIndex x) →
      rest.Pairwise (fun p q => rmIndex p < rmIndex q) →
      FindInv b (seen ++ rest) (rest.foldl (findStep b) acc) := by
  induction rest with
  | nil =>
    intro seen acc hinv _ _
    simpa using hinv
  | cons p rest ih =>
    intro seen acc hinv hord hsort
    have hsort' := List.pairwise_cons.mp hsort
    have hstep := findInv_step b seen acc p hinv
      (fun q hq => hord q hq p (List.mem_cons_self p rest))
    have hord' : ∀ q ∈ seen ++ [p], ∀ x ∈ rest, rmIndex q < rmIndex x := by
      intro q hq x hx
      rcases List.mem_append.mp hq with hq | hq
      · exact hord q hq x (List.mem_cons_of_mem p hx)
      · have : q = p := by simpa using hq
        subst this
        exact hsort'.1 x hx
    have := ih (seen ++ [p]) (findStep b acc p) hstep hord' hsort'.2
    simpa using this

theorem findInv_final (b : Board) :
    FindInv b cellsRM (cellsRM.foldl (findStep b) (10, none)) := by
  have hinit : FindInv b [] (10, none) := by
    constructor
    · intro _
      exact ⟨rfl, by simp⟩
    · intro q0 h
      simp at h
  have := findInv_foldl b cellsRM [] (10, none) hinit (by simp) cellsRM_sorted
  simpa using this

theorem find_none_iff (b : Board) :
    find_least_candidates_cell b = none ↔ ∀ p : Fin 9 × Fin 9, b p.1 p.2 ≠ 0 := by
  have h := findInv_final b
  unfold find_least_candidates_cell
  constructor
  · intro hn p
    exact (h.1 hn).2 p (mem_cellsRM p)
  · intro hall
    rcases hres : (cellsRM.foldl (findStep b) (10, none)).2 with _ | q0
    · rfl
    · exact absurd (h.2 q0 hres).2.1 (hall q0)

theorem find_some_spec (b : Board) (p : Fin 9 × Fin 9)
    (h : find_least_candidates_cell b = some p) :
    b p.1 p.2 = 0 ∧
      (∀ q : Fin 9 × Fin 9, b q.1 q.2 = 0 →
        candidates b p.1 p.2 ≤ candidates b q.1 q.2) ∧
      (∀ q : Fin 9 × Fin 9, b q.1 q.2 = 0 →
        candidates b q.1 q.2 = candidates b p.1 p.2 → rmIndex p ≤ rmIndex q) := by
  have hi := (findInv_final b).2 p h
  obtain ⟨_, hemp, hacc, hmin, htie⟩ := hi
  refine ⟨hemp, fun q hq => ?_, fun q hq he => ?_⟩
  · have := hmin q (mem_cellsRM q) hq
    omega
  · exact htie q (mem_cellsRM q) hq (by omega)

theorem find_some_empty {b : Board} {p : Fin 9 × Fin 9}
    (h : find_least_candidates_cell b = some p) : b p.1 p.2 = 0 :=
  (find_some_spec b p h).1

theorem numEmpty_le (b : Board) : numEmpty b ≤ 81 := by
  unfold numEmpty
  have h := Finset.card_filter_le Finset.univ fun p : Fin 9 × Fin 9 => b p.1 p.2 = 0
  simpa using h

theorem numEmpty_eq_zero_iff (b : Board) :
    numEmpty b = 0 ↔ ∀ i j : Fin 9, b i j ≠ 0 := by
  unfold numEmpty
  rw [Finset.card_eq_zero, Finset.filter_eq_empty_iff]
  constructor
  · intro h i j
    exact h (Finset.mem_univ (i, j))
  · intro h p _
    exact h p.1 p.2

theorem numEmpty_setCell {b : Board} {r c : Fin 9} {v : Nat}
    (h0 : b r c = 0) (hv : v ≠ 0) :
    numEmpty (setCell b r c v) + 1 = numEmpty b := by
  unfold numEmpty
  have hset : (Finset.univ.filter fun p : Fin 9 × Fin 9 => setCell b r c v p.1 p.2 = 0)
      = (Finset.univ.filter fun p : Fin 9 × Fin 9 => b p.1 p.2 = 0).erase (r, c) := by
    ext q
    obtain ⟨i, j⟩ := q
    simp only [Finset.mem_filter, Finset.mem_erase, Finset.mem_univ, true_and]
    constructor
    · intro hz
      by_cases hij : i = r ∧ j = c
      · obtain ⟨rfl, rfl⟩ := hij
        rw [setCell_self] at hz
        exact absurd hz hv
      · rw [setCell_ne _ _ _ _ hij] at hz
        refine ⟨fun he => hij ?_, hz⟩
        obtain ⟨h1, h2⟩ := Prod.mk.injEq .. ▸ he
        exact ⟨h1, h2⟩
    · rintro ⟨hne, hz⟩
      have hij : ¬(i = r ∧ j = c) := by
        rintro ⟨rfl, rfl⟩
        exact hne rfl
      rw [setCell_ne _ _ _ _ hij]
      exact hz
  rw [hset, Finset.card_erase_of_mem (by simp [h0])]
  have hpos : 0 < (Finset.univ.filter fun p : Fin 9 × Fin 9 => b p.1 p.2 = 0).card :=
    Finset.card_pos.mpr ⟨(r, c), by simp [h0]⟩
  omega

theorem mem_range19 {x : Nat} (h : x ∈ List.range' 1 9) : 1 ≤ x ∧ x ≤ 9 := by
  have he : List.range' 1 9 = [1, 2, 3, 4, 5, 6, 7, 8, 9] := rfl
  rw [he] at h
  simp at h
  rcases h with h | h | h | h | h | h | h | h | h <;> omega

theorem loopGen_false_eq {next : Board → Option (Bool × Board)} {r c : Fin 9}
    (hnext : ∀ b2 x, next b2 = some (false, x) → x = b2)
    {b : Board} (hrc : b r c = 0) :
    ∀ (nums : List Nat) (b2 : Board),
      loopGen next r c nums b = some (false, b2) → b2 = b := by
  intro nums
  induction nums with
  | nil =>
    intro b2 h
    simp [loopGen] at h
    exact h.symm
  | cons num rest ih =>
    intro b2 h
    rw [loopGen] at h
    by_cases hv : is_valid_move b r c num
    · rw [if_pos hv] at h
      rcases hnx : next (setCell b r c num) with _ | ⟨_ | _, b3⟩
      · simp only [hnx] at h
        exact Option.noConfusion h
      · simp only [hnx] at h
        have hb3 : b3 = setCell b r c num := hnext _ _ hnx
        subst hb3
        rw [setCell_cancel b r c num hrc] at h
        exact ih b2 h
      · simp only [hnx] at h
        simp at h
    · rw [if_neg hv] at h
      exact ih b2 h

theorem solveF_false_eq : ∀ (f : Nat) (b b2 : Board),
    solveF f b = some (false, b2) → b2 = b := by
  intro f
  induction f with
  | zero =>
    intro b b2 h
    simp [solveF] at h
  | succ f ih =>
    intro b b2 h
    rw [solveF] at h
    rcases hfind : find_least_candidates_cell b with _ | ⟨r, c⟩
    · simp only [hfind] at h
      simp at h
    · simp only [hfind] at h
      exact loopGen_false_eq (fun b' x hx => ih b' x hx) (find_some_empty hfind) _ b2 h

theorem loopGen_isSome {next : Board → Option (Bool × Board)} {r c : Fin 9} {b : Board}
    (hrc : b r c = 0)
    (hrestore : ∀ b2 x, next b2 = some (false, x) → x = b2)
    (htot : ∀ x, 1 ≤ x → x ≤ 9 → (next (setCell b r c x)).isSome = true) :
    ∀ nums : List Nat, (∀ x ∈ nums, 1 ≤ x ∧ x ≤ 9) →
      (loopGen next r c nums b).isSome = true := by
  intro nums
  induction nums with
  | nil =>
    intro _
    simp [loopGen]
  | cons num rest ih =>
    intro hmem
    rw [loopGen]
    by_cases hv : is_valid_move b r c num
    · rw [if_pos hv]
      have hs := htot num (hmem num (by simp)).1 (hmem num (by simp)).2
      rcases hnx : next (setCell b r c num) with _ | ⟨_ | _, b3⟩
      · rw [hnx] at hs
        simp at hs
      · simp only [hnx]
        have hb3 : b3 = setCell b r c num := hrestore _ _ hnx
        subst hb3
        rw [setCell_cancel b r c num hrc]
        exact ih fun x hx => hmem x (by simp [hx])
      · simp only [hnx]
        rfl
    · rw [if_neg hv]
      exact ih fun x hx => hmem x (by simp [hx])

theorem solveF_isSome : ∀ (n : Nat) (b : Board) (f : Nat),
    numEmpty b ≤ n → n < f → (solveF f b).isSome = true := by
  intro n
  induction n with
  | zero =>
    intro b f h0 hf
    obtain ⟨f, rfl⟩ : ∃ g, f = g + 1 := ⟨f - 1, by omega⟩
    rw [solveF]
    have hnone : find_least_candidates_cell b = none := by
      refine (find_none_iff b).mpr ?_
      have hz := (numEmpty_eq_zero_iff b).mp (by omega)
      intro p
      exact hz p.1 p.2
    rw [hnone]
    rfl
  | succ n ih =>
    intro b f h0 hf
    obtain ⟨f, rfl⟩ : ∃ g, f = g + 1 := ⟨f - 1, by omega⟩
    rw [solveF]
    rcases hfind : find_least_candidates_cell b with _ | ⟨r, c⟩
    · rfl
    · have hrc : b r c = 0 := find_some_empty hfind
      refine loopGen_isSome hrc (fun b2 x hx => solveF_false_eq f b2 x hx) ?_ _
        fun x hx => mem_range19 hx
      intro x hx1 hx9
      refine ih _ f ?_ (by omega)
      have := numEmpty_setCell hrc (show x ≠ 0 by omega)
      omega

theorem mem_range19_of {x : Nat} (h1 : 1 ≤ x) (h9 : x ≤ 9) : x ∈ List.range' 1 9 := by
  have he : List.range' 1 9 = [1, 2, 3, 4, 5, 6, 7, 8, 9] := rfl
  rw [he]
  simp
  omega

theorem is_valid_move_of_solution {s b : Board} {r c : Fin 9}
    (hs : IsSolution s b) (hrc : b r c = 0) :
    is_valid_move b r c (s r c) = true := by
  obtain ⟨hsr, hsc, hse⟩ := hs
  refine (is_valid_move_spec b r c (s r c)).mpr ?_
  rintro ⟨p1, p2⟩ hunit heq
  have hpz : b p1 p2 ≠ 0 := by
    rw [heq]
    have := (hsr r c).1
    omega
  have hsp : s p1 p2 = b p1 p2 := hse p1 p2 hpz
  have hnep : ((r, c) : Fin 9 × Fin 9) ≠ (p1, p2) := by
    intro he
    cases he
    exact hpz hrc
  have hcontra := hsc (r, c) (p1, p2) hnep hunit
    (by simp only []; have := (hsr r c).1; omega)
  exact hcontra (by simp only []; rw [hsp, heq])

theorem isSolution_setCell {s b : Board} {r c : Fin 9}
    (hs : IsSolution s b) : IsSolution s (setCell b r c (s r c)) := by
  obtain ⟨hsr, hsc, hse⟩ := hs
  refine ⟨hsr, hsc, ?_⟩
  intro i j hij
  by_cases hijc : i = r ∧ j = c
  · obtain ⟨rfl, rfl⟩ := hijc
    rw [setCell_self]
  · rw [setCell_ne _ _ _ _ hijc] at hij ⊢
    exact hse i j hij

theorem loopGen_sound {next : Board → Option (Bool × Board)} {r c : Fin 9} {b : Board}
    (hrc : b r c = 0) (hbr : InRange b) (hbc : Consistent b)
    (hrestore : ∀ b2 x, next b2 = some (false, x) → x = b2)
    (hsound : ∀ b1, InRange b1 → Consistent b1 →
      ∀ b2, next b1 = some (true, b2) → GoodResult b1 b2) :
    ∀ nums : List Nat, (∀ x ∈ nums, 1 ≤ x ∧ x ≤ 9) →
      ∀ b2, loopGen next r c nums b = some (true, b2) → GoodResult b b2 := by
  intro nums
  induction nums with
  | nil =>
    intro _ b2 h
    simp [loopGen] at h
  | cons num rest ih =>
    intro hmem b2 h
    rw [loopGen] at h
    by_cases hv : is_valid_move b r c num
    · rw [if_pos hv] at h
      have hnum9 : num ≤ 9 := (hmem num (by simp)).2
      have hb1r : InRange (setCell b r c num) := inRange_setCell hbr hnum9
      have hb1c : Consistent (setCell b r c num) := consistent_setCell hbc hv
      rcases hnx : next (setCell b r c num) with _ | ⟨_ | _, b3⟩
      · simp only [hnx] at h
        exact Option.noConfusion h
      · simp only [hnx] at h
        have hb3 : b3 = setCell b r c num := hrestore _ _ hnx
        subst hb3
        rw [setCell_cancel b r c num hrc] at h
        exact ih (fun x hx => hmem x (by simp [hx])) b2 h
      · simp only [hnx] at h
        obtain rfl : b3 = b2 := by simpa using h
        obtain ⟨h1, h2, h3, h4⟩ := hsound _ hb1r hb1c _ hnx
        refine ⟨h1, h2, h3, ?_⟩
        intro i j hij
        have hne : setCell b r c num i j = b i j := setCell_nonzero_frame num hrc hij
        rw [h4 i j (by rw [hne]; exact hij), hne]
    · rw [if_neg hv] at h
      exact ih (fun x hx => hmem x (by simp [hx])) b2 h

theorem solveF_sound : ∀ (f : Nat) (b : Board), InRange b → Consistent b →
    ∀ b2, solveF f b = some (true, b2) → GoodResult b b2 := by
  intro f
  induction f with
  | zero =>
    intro b _ _ b2 h
    simp [solveF] at h
  | succ f ih =>
    intro b hbr hbc b2 h
    rw [solveF] at h
    rcases hfind : find_least_candidates_cell b with _ | ⟨r, c⟩
    · simp only [hfind] at h
      obtain rfl : b = b2 := by simpa using h
      have hfilled : Filled b := fun i j => (find_none_iff b).mp hfind (i, j)
      exact ⟨hbr, hbc, hfilled, fun i j _ => rfl⟩
    · simp only [hfind] at h
      exact loopGen_sound (find_some_empty hfind) hbr hbc
        (fun b' x hx => solveF_false_eq f b' x hx)
        (fun b1 h1 h2 b3 h3 => ih b1 h1 h2 b3 h3)
        _ (fun x hx => mem_range19 hx) b2 h

theorem loopGen_complete {next : Board → Option (Bool × Board)} {r c : Fin 9} {b : Board}
    {d : Nat} (hrc : b r c = 0)
    (hrestore : ∀ b2 x, next b2 = some (false, x) → x = b2)
    (htot : ∀ x, 1 ≤ x → x ≤ 9 → (next (setCell b r c x)).isSome = true)
    (hvd : is_valid_move b r c d = true)
    (hd : ∃ b2, next (setCell b r c d) = some (true, b2)) :
    ∀ nums : List Nat, (∀ x ∈ nums, 1 ≤ x ∧ x ≤ 9) → d ∈ nums →
      ∃ b2, loopGen next r c nums b = some (true, b2) := by
  intro nums
  induction nums with
  | nil =>
    intro _ hdm
    simp at hdm
  | cons num rest ih =>
    intro hall hdm
    rw [loopGen]
    by_cases hv : is_valid_move b r c num
    · rw [if_pos hv]
      rcases hnx : next (setCell b r c num) with _ | ⟨_ | _, b3⟩
      · have hs := htot num (hall num (by simp)).1 (hall num (by simp)).2
        rw [hnx] at hs
        simp at hs
      · have hb3 : b3 = setCell b r c num := hrestore _ _ hnx
        subst hb3
        simp only [hnx]
        rw [setCell_cancel b r c num hrc]
        have hdrest : d ∈ rest := by
          rcases List.mem_cons.mp hdm with rfl | hdr
          · obtain ⟨b2, hb2⟩ := hd
            rw [hnx] at hb2
            simp at hb2
          · exact hdr
        exact ih (fun x hx => hall x (by simp [hx])) hdrest
      · refine ⟨b3, ?_⟩
        simp only [hnx]
    · rw [if_neg hv]
      have hdrest : d ∈ rest := by
        rcases List.mem_cons.mp hdm with rfl | hdr
        · exact absurd hvd hv
        · exact hdr
      exact ih (fun x hx => hall x (by simp [hx])) hdrest

theorem solveF_complete : ∀ (n : Nat) (b : Board) (f : Nat), numEmpty b ≤ n → n < f →
    InRange b → Consistent b → (∃ s, IsSolution s b) →
    ∃ b2, solveF f b = some (true, b2) := by
  intro n
  induction n with
  | zero =>
    intro b f h0 hf _ _ _
    obtain ⟨f, rfl⟩ : ∃ g, f = g + 1 := ⟨f - 1, by omega⟩
    rw [solveF]
    have hnone : find_least_candidates_cell b = none := by
      refine (find_none_iff b).mpr ?_
      have hz := (numEmpty_eq_zero_iff b).mp (by omega)
      intro p
      exact hz p.1 p.2
    rw [hnone]
    exact ⟨b, rfl⟩
  | succ n ih =>
    intro b f h0 hf hr hc hs
    obtain ⟨f, rfl⟩ : ∃ g, f = g + 1 := ⟨f - 1, by omega⟩
    rw [solveF]
    rcases hfind : find_least_candidates_cell b with _ | ⟨r, c⟩
    · exact ⟨b, rfl⟩
    · have hrc : b r c = 0 := find_some_empty hfind
      obtain ⟨s, hsSol⟩ := hs
      have hd1 : 1 ≤ s r c := (hsSol.1 r c).1
      have hd9 : s r c ≤ 9 := (hsSol.1 r c).2
      have hvd := is_valid_move_of_solution hsSol hrc
      have hnextd : ∃ b2, solveF f (setCell b r c (s r c)) = some (true, b2) := by
        refine ih _ f ?_ (by omega) (inRange_setCell hr hd9)
          (consistent_setCell hc hvd) ⟨s, isSolution_setCell hsSol⟩
        have := numEmpty_setCell hrc (show s r c ≠ 0 by omega)
        omega
      refine loopGen_complete hrc (fun b2 x hx => solveF_false_eq f b2 x hx) ?_ hvd hnextd
        _ (fun x hx => mem_range19 hx) (mem_range19_of hd1 hd9)
      intro x hx1 hx9
      refine solveF_isSome n _ f ?_ (by omega)
      have := numEmpty_setCell hrc (show x ≠ 0 by omega)
      omega

theorem solve_eq_solveF (b : Board) : solveF (numEmpty b + 1) b = some (solve b) := by
  have h := solveF_isSome (numEmpty b) b (numEmpty b + 1) (le_refl _) (by omega)
  rcases hres : solveF (numEmpty b + 1) b with _ | r
  · rw [hres] at h
    simp at h
  · unfold solve
    rw [hres]
    rfl

theorem solve_true_good {b : Board} (hr : InRange b) (hc : Consistent b)
    (h : (solve b).1 = true) : GoodResult b (solve b).2 := by
  have he := solve_eq_solveF b
  have hsv : solveF (numEmpty b + 1) b = some (true, (solve b).2) := by
    rw [he, ← h]
  exact solveF_sound _ _ hr hc _ hsv

theorem solve_complete_true {b : Board} (hr : InRange b) (hc : Consistent b)
    (hs : ∃ s, IsSolution s b) : (solve b).1 = true := by
  obtain ⟨b2, hb2⟩ :=
    solveF_complete (numEmpty b) b (numEmpty b + 1) (le_refl _) (by omega) hr hc hs
  have he := solve_eq_solveF b
  rw [hb2] at he
  have h2 := Option.some.inj he
  rw [← h2]

theorem solve_false_frame {b : Board} (h : (solve b).1 = false) : (solve b).2 = b := by
  have he := solve_eq_solveF b
  rcases hsv : solve b with ⟨fl, b2⟩
  rw [hsv] at h he
  cases fl
  · exact solveF_false_eq _ _ _ he
  · simp at h

theorem loopGenT_fst {next : Board → Option (Bool × Board) × List Board}
    {nextF : Board → Option (Bool × Board)} {r c : Fin 9}
    (hag : ∀ b, (next b).1 = nextF b) :
    ∀ (nums : List Nat) (b : Board),
      (loopGenT next r c nums b).1 = loopGen nextF r c nums b := by
  intro nums
  induction nums with
  | nil =>
    intro b
    rfl
  | cons num rest ih =>
    intro b
    rw [loopGenT, loopGen]
    by_cases hv : is_valid_move b r c num
    · rw [if_pos hv, if_pos hv]
      rcases hres : next (setCell b r c num) with ⟨res, log⟩
      have hne : nextF (setCell b r c num) = res := by
        rw [← hag (setCell b r c num), hres]
      rcases res with _ | ⟨_ | _, b2⟩
      · simp only [hres, hne]
      · simp only [hres, hne]
        exact ih _
      · simp only [hres, hne]
    · rw [if_neg hv, if_neg hv]
      exact ih b

theorem solveT_fst : ∀ (f : Nat) (b : Board), (solveT f b).1 = solveF f b := by
  intro f
  induction f with
  | zero =>
    intro b
    rfl
  | succ f ih =>
    intro b
    rw [solveT, solveF]
    rcases hfind : find_least_candidates_cell b with _ | ⟨r, c⟩
    · simp only [hfind]
    · simp only [hfind]
      exact loopGenT_fst ih _ _

theorem loopGenT_log {next : Board → Option (Bool × Board) × List Board} {r c : Fin 9}
    {b : Board} (hrc : b r c = 0) (hbr : InRange b) (hbc : Consistent b)
    (hrestore : ∀ b2 x, (next b2).1 = some (false, x) → x = b2)
    (hlog : ∀ b1, InRange b1 → Consistent b1 → ∀ x ∈ (next b1).2, Consistent x) :
    ∀ nums : List Nat, (∀ x ∈ nums, 1 ≤ x ∧ x ≤ 9) →
      ∀ x ∈ (loopGenT next r c nums b).2, Consistent x := by
  intro nums
  induction nums with
  | nil =>
    intro _ x hx
    simp [loopGenT] at hx
  | cons num rest ih =>
    intro hall x hx
    rw [loopGenT] at hx
    by_cases hv : is_valid_move b r c num
    · rw [if_pos hv] at hx
      have hb1r : InRange (setCell b r c num) := inRange_setCell hbr (hall num (by simp)).2
      have hb1c : Consistent (setCell b r c num) := consistent_setCell hbc hv
      rcases hres : next (setCell b r c num) with ⟨res, log⟩
      have hlog1 : ∀ y ∈ log, Consistent y := by
        intro y hy
        refine hlog _ hb1r hb1c y ?_
        rw [hres]
        exact hy
      rcases res with _ | ⟨_ | _, b2⟩
      · simp only [hres] at hx
        rcases List.mem_cons.mp hx with rfl | hx
        · exact hb1c
        · exact hlog1 x hx
      · have hb2 : b2 = setCell b r c num := hrestore _ _ (by rw [hres])
        subst hb2
        simp only [hres] at hx
        rw [setCell_cancel b r c num hrc] at hx
        rcases List.mem_cons.mp hx with rfl | hx
        · exact hb1c
        · rcases List.mem_append.mp hx with hx | hx
          · exact hlog1 x hx
          · rcases List.mem_cons.mp hx with rfl | hx
            · exact hbc
            · exact ih (fun y hy => hall y (by simp [hy])) x hx
      · simp only [hres] at hx
        rcases List.mem_cons.mp hx with rfl | hx
        · exact hb1c
        · exact hlog1 x hx
    · rw [if_neg hv] at hx
      exact ih (fun y hy => hall y (by simp [hy])) x hx

theorem is_valid_input_eq_false_iff (bd : List (List Int)) :
    is_valid_input bd = false ↔
      bd.length ≠ 9 ∨ (∃ row ∈ bd, row.length ≠ 9) ∨
        ∃ row ∈ bd, ∃ v ∈ row, ¬(0 ≤ v ∧ v ≤ 9) := by
  unfold is_valid_input
  by_cases h1 : bd.length ≠ 9 ∨ bd.any (fun row => decide (row.length ≠ 9)) = true
  · rw [if_pos h1]
    constructor
    · intro _
      rcases h1 with h1 | h1
      · exact Or.inl h1
      · obtain ⟨row, hrow, hne⟩ := List.any_eq_true.mp h1
        exact Or.inr (Or.inl ⟨row, hrow, by simpa using hne⟩)
    · intro _
      rfl
  · rw [if_neg h1]
    push_neg at h1
    obtain ⟨hlen, hany⟩ := h1
    constructor
    · intro h
      have hnall : ¬(bd.all (fun row => row.all fun num => decide (0 ≤ num ∧ num ≤ 9)) = true) := by
        rw [h]
        simp
      rw [List.all_eq_true] at hnall
      push_neg at hnall
      obtain ⟨row, hrow, hfail⟩ := hnall
      simp only [ne_eq, List.all_eq_true] at hfail
      push_neg at hfail
      obtain ⟨v, hv, hvf⟩ := hfail
      refine Or.inr (Or.inr ⟨row, hrow, v, hv, ?_⟩)
      simpa using hvf
    · intro h
      rcases h with h | h | h
      · exact absurd hlen h
      · obtain ⟨row, hrow, hne⟩ := h
        exact absurd (List.any_eq_true.mpr ⟨row, hrow, by simpa using hne⟩) hany
      · obtain ⟨row, hrow, v, hv, hvr⟩ := h
        rw [Bool.eq_false_iff]
        intro hall
        rw [List.all_eq_true] at hall
        have hrall := hall row hrow
        rw [List.all_eq_true] at hrall
        have hvv := hrall v hv
        rw [decide_eq_true_iff] at hvv
        exact hvr hvv

theorem solveT_log : ∀ (f : Nat) (b : Board), InRange b → Consistent b →
    ∀ x ∈ (solveT f b).2, Consistent x := by
  intro f
  induction f with
  | zero =>
    intro b _ _ x hx
    simp [solveT] at hx
  | succ f ih =>
    intro b hbr hbc x hx
    rw [solveT] at hx
    rcases hfind : find_least_candidates_cell b with _ | ⟨r, c⟩
    · simp only [hfind] at hx
      simp at hx
    · simp only [hfind] at hx
      refine loopGenT_log (find_some_empty hfind) hbr hbc ?_
        (fun b1 h1 h2 => ih b1 h1 h2) _ (fun y hy => mem_range19 hy) x hx
      intro b2 y hy
      rw [solveT_fst f b2] at hy
      exact solveF_false_eq f b2 y hy

/-- C1: for every construction-accepted, unit-consistent initial board, if
`solve` returns true then every cell of the final grid is in [1, 9], all
row, column and box uniqueness constraints are satisfied, and the final
grid agrees with the initial board on all of its originally non-zero
cells. -/
theorem claim_C1 (b : Board) (hr : InRange b) (hc : Consistent b)
    (h : (solve b).1 = true) :
    (∀ i j : Fin 9, 1 ≤ (solve b).2 i j ∧ (solve b).2 i j ≤ 9) ∧
      Consistent (solve b).2 ∧
      (∀ i j : Fin 9, b i j ≠ 0 → (solve b).2 i j = b i j) := by
  obtain ⟨h1, h2, h3, h4⟩ := solve_true_good hr hc h
  exact ⟨fun i j => ⟨Nat.one_le_iff_ne_zero.mpr (h3 i j), h1 i j⟩, h2, h4⟩

set_option maxRecDepth 40000 in
theorem claim_C1_witness :
    (∀ i j : Fin 9, 1 ≤ (solve holeGrid).2 i j ∧ (solve holeGrid).2 i j ≤ 9) ∧
      Consistent (solve holeGrid).2 ∧
      (∀ i j : Fin 9, holeGrid i j ≠ 0 → (solve holeGrid).2 i j = holeGrid i j) :=
  claim_C1 holeGrid (by decide) (by decide) (by decide)

/-- C2: for every construction-accepted, unit-consistent initial board, if a
full valid completion of the board exists then `solve` returns true (it
returns false only on unsatisfiable boards). -/
theorem claim_C2 (b : Board) (hr : InRange b) (hc : Consistent b)
    (hs : ∃ s : Board, IsSolution s b) : (solve b).1 = true :=
  solve_complete_true hr hc hs

set_option maxRecDepth 40000 in
theorem claim_C2_witness : (solve holeGrid).1 = true :=
  claim_C2 holeGrid (by decide) (by decide) ⟨fullGrid, by decide⟩

/-- C3: for every construction-accepted board, if `solve` returns false then
the grid after the call is identical, cell for cell, to the grid before
the call (every tentative assignment has been unwound by backtracking). -/
theorem claim_C3 (b : Board) (_hr : InRange b) (h : (solve b).1 = false) :
    (solve b).2 = b :=
  solve_false_frame h

set_option maxRecDepth 40000 in
theorem claim_C3_witness : (solve deadGrid).2 = deadGrid :=
  claim_C3 deadGrid (by decide) (by decide)

/-- C4: `is_valid_move` returns true iff the digit appears in none of the 27
scanned positions, i.e. iff no cell sharing a row, column or 3x3 box with
the target position (the target cell itself included, since it shares its
own row) currently holds the digit; the embedding is a pure function, so
the grid is not modified. -/
theorem claim_C4 (b : Board) (r c : Fin 9) (num : Nat) :
    is_valid_move b r c num = true ↔
      ∀ p : Fin 9 × Fin 9, SameUnit (r, c) p → b p.1 p.2 ≠ num :=
  is_valid_move_spec b r c num

set_option maxRecDepth 40000 in
theorem claim_C4_witness : deadGrid (5 : Fin 9) (0 : Fin 9) ≠ 3 :=
  (claim_C4 deadGrid 5 5 3).mp (by decide) ((5 : Fin 9), (0 : Fin 9)) (by decide)

/-- C5: `find_least_candidates_cell` returns `none` exactly when the grid has
no empty cell; otherwise it returns an empty cell whose count of digits
1-9 passing `is_valid_move` is minimal among all empty cells, and any
empty cell with the same count has a row-major rank at least as large (so
ties go to the first such cell in row-major scan order). -/
theorem claim_C5 (b : Board) :
    (find_least_candidates_cell b = none ↔ ∀ p : Fin 9 × Fin 9, b p.1 p.2 ≠ 0) ∧
      ∀ p : Fin 9 × Fin 9, find_least_candidates_cell b = some p →
        b p.1 p.2 = 0 ∧
          (∀ q : Fin 9 × Fin 9, b q.1 q.2 = 0 →
            candidates b p.1 p.2 ≤ candidates b q.1 q.2) ∧
          (∀ q : Fin 9 × Fin 9, b q.1 q.2 = 0 →
            candidates b q.1 q.2 = candidates b p.1 p.2 → rmIndex p ≤ rmIndex q) :=
  ⟨find_none_iff b, fun p hp => find_some_spec b p hp⟩

set_option maxRecDepth 40000 in
theorem claim_C5_witness :
    deadGrid (0 : Fin 9) (8 : Fin 9) = 0 ∧
      candidates deadGrid (0 : Fin 9) (8 : Fin 9) ≤ candidates deadGrid (1 : Fin 9) (0 : Fin 9) :=
  ⟨((claim_C5 deadGrid).2 ((0 : Fin 9), (8 : Fin 9)) (by decide)).1,
    ((claim_C5 deadGrid).2 ((0 : Fin 9), (8 : Fin 9)) (by decide)).2.1
      ((1 : Fin 9), (0 : Fin 9)) (by decide)⟩

/-- C6: construction fails exactly when the grid is not 9 rows of 9 columns
each or some cell lies outside [0, 9]; in particular an 8x9 grid and a
grid containing 10 are rejected, while a shape- and range-valid grid with
duplicate digits in a row is accepted. -/
theorem claim_C6 :
    (∀ bd : List (List Int), mkSudoku bd = none ↔
        (bd.length ≠ 9 ∨ (∃ row ∈ bd, row.length ≠ 9) ∨
          ∃ row ∈ bd, ∃ v ∈ row, ¬(0 ≤ v ∧ v ≤ 9))) ∧
      mkSudoku rows8Input = none ∧
      mkSudoku tenInput = none ∧
      (mkSudoku dupInput).isSome = true := by
  refine ⟨?_, by decide, by decide, by decide⟩
  intro bd
  unfold mkSudoku
  by_cases h : is_valid_input bd = true
  · rw [if_pos h]
    constructor
    · intro hsome
      exact Option.noConfusion hsome
    · intro hrhs
      have hfalse := (is_valid_input_eq_false_iff bd).mpr hrhs
      rw [h] at hfalse
      exact Bool.noConfusion hfalse
  · rw [if_neg h]
    constructor
    · intro _
      exact (is_valid_input_eq_false_iff bd).mp (Bool.eq_false_iff.mpr h)
    · intro _
      rfl

theorem claim_C6_witness :
    tenInput.length ≠ 9 ∨ (∃ row ∈ tenInput, row.length ≠ 9) ∨
      ∃ row ∈ tenInput, ∃ v ∈ row, ¬(0 ≤ v ∧ v ≤ 9) :=
  (claim_C6.1 tenInput).mp (by decide)

/-- C7: for every construction-accepted board, the search terminates: fuel
`numEmpty b + 1` never runs out, i.e. the recursion depth of `solve` is
bounded by the number of empty cells plus the top-level call, and that
number of empty cells is at most 81. -/
theorem claim_C7 (b : Board) (_hr : InRange b) :
    (solveF (numEmpty b + 1) b).isSome = true ∧ numEmpty b ≤ 81 :=
  ⟨solveF_isSome (numEmpty b) b (numEmpty b + 1) (le_refl _) (by omega),
    numEmpty_le b⟩

theorem claim_C7_witness :
    (solveF (numEmpty fullGrid + 1) fullGrid).isSome = true ∧ numEmpty fullGrid ≤ 81 :=
  claim_C7 fullGrid (by decide)

/-- C8: in a run of `solve` started from a construction-accepted,
unit-consistent board, every intermediate grid state produced by a
tentative assignment or by a backtracking reset (the states logged by the
instrumented search `solveT`) satisfies the row/column/box uniqueness
invariant. -/
theorem claim_C8 (b : Board) (hr : InRange b) (hc : Consistent b) :
    ∀ x ∈ (solveT (numEmpty b + 1) b).2, Consistent x :=
  fun x hx => solveT_log (numEmpty b + 1) b hr hc x hx

set_option maxRecDepth 40000 in
theorem claim_C8_witness : Consistent (setCell holeGrid 0 0 1) :=
  claim_C8 holeGrid (by decide) (by decide) (setCell holeGrid 0 0 1) (by decide)

set_option maxRecDepth 40000 in
/-- C9: on the all-zero board `solve` returns true, and afterwards every cell
of the grid is in [1, 9] and all row, column and box uniqueness
constraints hold. -/
theorem claim_C9 :
    (solve emptyBoard).1 = true ∧
      (∀ i j : Fin 9, 1 ≤ (solve emptyBoard).2 i j ∧ (solve emptyBoard).2 i j ≤ 9) ∧
      Consistent (solve emptyBoard).2 := by
  have hr : InRange emptyBoard := by
    intro i j
    simp [emptyBoard]
  have hc : Consistent emptyBoard := by
    intro p q _ _ hz
    simp [emptyBoard] at hz
  have hs : ∃ s : Board, IsSolution s emptyBoard := ⟨fullGrid, by decide⟩
  have ht := solve_complete_true hr hc hs
  obtain ⟨h1, h2, h3, _⟩ := solve_true_good hr hc ht
  exact ⟨ht, fun i j => ⟨Nat.one_le_iff_ne_zero.mpr (h3 i j), h1 i j⟩, h2⟩

/-- C10: for every construction-accepted board with no empty cell, `solve`
returns true immediately and leaves the grid unchanged, even when the
filled board violates the uniqueness constraints (as `onesBoard`, the
witness below, does). -/
theorem claim_C10 (b : Board) (_hr : InRange b) (hf : ∀ i j : Fin 9, b i j ≠ 0) :
    solve b = (true, b) := by
  have h0 : numEmpty b = 0 := (numEmpty_eq_zero_iff b).mpr hf
  unfold solve
  rw [h0, solveF]
  have hnone : find_least_candidates_cell b = none :=
    (find_none_iff b).mpr fun p => hf p.1 p.2
  rw [hnone]
  rfl

theorem claim_C10_witness : solve onesBoard = (true, onesBoard) :=
  claim_C10 onesBoard (by decide) (by decide)
